import Mathlib

/-!
Verification of a Thompson's-construction regular-expression engine.

The program has three components, embedded here from the C++ source
(`RegularExpression.cpp` / `RegularExpression.h`):

* the Builder: a recursive-descent parser (`expr`, `term`, `fact`) that
  produces an NFA as a vector of `State`s plus an initial-state index,
  threading `next_index` and `start_index` through the recursion;
* the Matcher (`mat`): an epsilon-closure simulator over the state vector
  (`traverseEmptyTransitions` / `traverseEmptyTransitionsRecursive`);
* the Renderer (`dot`, `dotState`): a Graphviz text serializer.

Streams are embedded as `List Char` (the stream position is the remaining
suffix), `std::set<int>` as a sorted duplicate-free `List Int` (so that the
source's ascending iteration is list iteration), and
recursion that the C++ performs on the call stack is given explicit fuel;
the fuel bounds used by the top-level wrappers are proved sufficient below.
-/

namespace RE

/-- The character `'\0'`, used by the source as the epsilon marker. -/
def nul : Char := Char.ofNat 0

/-- `std::isalpha` in the C locale, restricted to ASCII as the source uses it:
the letters `A`–`Z` and `a`–`z`. -/
def isAlphaCpp (c : Char) : Bool := ('A' ≤ c && c ≤ 'Z') || ('a' ≤ c && c ≤ 'z')

/-- `std::islower` in the C locale: the letters `a`–`z`. -/
def isLowerCpp (c : Char) : Bool := 'a' ≤ c && c ≤ 'z'

/-- `RegularExpression::State`: a state of the automaton.  `character = '\0'`
marks an epsilon state; `-1` marks an absent outgoing edge, any other value is
the index of the target state in the automaton vector. -/
structure State where
  character : Char := nul
  first_outgoing : Int := -1
  second_outgoing : Int := -1
deriving DecidableEq, Repr

/-- The default-constructed `State{}`: epsilon, no outgoing edges.  Every
production appends one of these as its trailing accept state. -/
def stub : State := ⟨nul, -1, -1⟩

/-- Result of one parser production: the sub-automaton vector, the remaining
input (the stream position), and the final values of the by-reference
`next_index` and `start_index` counters. -/
structure PR where
  aut : List State
  rest : List Char
  next : Int
  start : Int
deriving Repr

/-- `automaton.back().first_outgoing = v` (identity on the empty vector,
which is undefined behaviour in the source and unreachable on inputs from
the grammar). -/
def setBack1 : List State → Int → List State
  | [], _ => []
  | [st], v => [⟨st.character, v, st.second_outgoing⟩]
  | st :: s2 :: tl, v => st :: setBack1 (s2 :: tl) v

/-- `automaton.back().second_outgoing = v` (identity on the empty vector). -/
def setBack2 : List State → Int → List State
  | [], _ => []
  | [st], v => [⟨st.character, st.first_outgoing, v⟩]
  | st :: s2 :: tl, v => st :: setBack2 (s2 :: tl) v

/-- The `if (expression.peek() == '*')` block at the end of
`RegularExpression::fact`: loop the current accept state back to the
sub-automaton's start, point it forward past the new split state, append the
split state `{'\0', start, next+1}` and a fresh stub accept state. -/
def starStep (r : PR) : PR :=
  match r.rest with
  | c :: rest2 =>
    if c = '*' then
      ⟨setBack2 (setBack1 r.aut r.start) (r.next + 1)
          ++ [⟨nul, r.start, r.next + 1⟩, stub],
        rest2, r.next + 2, r.next⟩
    else r
  | [] => r

mutual

/-- `RegularExpression::expr`: `⟨expr⟩ := ⟨term⟩ [ | ⟨expr⟩ ]`. -/
def exprP : Nat → List Char → Int → Int → PR
  | 0, input, nx, st => ⟨[], input, nx, st⟩
  | fuel + 1, input, nx, st =>
    let r1 := termP fuel input nx st
    match r1.rest with
    | c :: rest2 =>
      if c = '|' then
        let r2 := exprP fuel rest2 r1.next r1.start
        ⟨setBack1 r1.aut (r2.next + 1) ++ setBack1 r2.aut (r2.next + 1)
            ++ [⟨nul, r1.start, r2.start⟩, stub],
          r2.rest, r2.next + 2, r2.next⟩
      else r1
    | [] => r1

/-- `RegularExpression::term`: `⟨term⟩ := ⟨fact⟩ [ ⟨term⟩ ]`; note the
continuation test is `peek() == '(' || std::islower(peek())`. -/
def termP : Nat → List Char → Int → Int → PR
  | 0, input, nx, st => ⟨[], input, nx, st⟩
  | fuel + 1, input, nx, st =>
    let r1 := factP fuel input nx st
    match r1.rest with
    | c :: _ =>
      if c = '(' || isLowerCpp c then
        let r2 := termP fuel r1.rest r1.next r1.start
        ⟨setBack1 r1.aut r2.start ++ r2.aut, r2.rest, r2.next, r1.start⟩
      else r1
    | [] => r1

/-- `RegularExpression::fact`: `⟨fact⟩ := ⟨lett⟩ [ * ] | ( ⟨expr⟩ ) [ * ]`.
The parenthesis branch consumes the `(`, recurses into `expr`, then blindly
consumes one character for the `)`. -/
def factP : Nat → List Char → Int → Int → PR
  | 0, input, nx, st => ⟨[], input, nx, st⟩
  | fuel + 1, input, nx, st =>
    match input with
    | [] => ⟨[], [], nx, st⟩
    | c :: rest =>
      if c = '(' then
        let r := exprP fuel rest nx st
        starStep ⟨r.aut, r.rest.drop 1, r.next, r.start⟩
      else if isAlphaCpp c then
        starStep ⟨[⟨c, nx + 1, -1⟩, stub], rest, nx + 2, nx⟩
      else ⟨[], c :: rest, nx, st⟩

end

/-- The built automaton: the state vector `m_automaton` and `m_initial_state`. -/
structure RegEx where
  automaton : List State
  initial : Int
deriving DecidableEq, Repr

/-- The constructor `RegularExpression::RegularExpression`: run `expr` with
`next_index = start_index = 0`; the fuel `3 * length + 3` is sufficient, as
proved below. -/
def buildRE (input : List Char) : RegEx :=
  let r := exprP (3 * input.length + 3) input 0 0
  ⟨r.aut, r.start⟩

/-- `m_automaton[i]` with the source's `int` index; out-of-range access is
undefined behaviour in C++ and is given the default state here. -/
def getState (aut : List State) (i : Int) : State :=
  if i < 0 then stub else aut.getD i.toNat stub

/-- `std::set<int>::insert`: insert into a sorted duplicate-free list,
keeping it sorted and duplicate-free. -/
def insSorted (x : Int) : List Int → List Int
  | [] => [x]
  | y :: tl => if x < y then x :: y :: tl else if x = y then y :: tl else y :: insSorted x tl

/-- The body of `RegularExpression::traverseEmptyTransitionsRecursive` for a
single element of `current_states` (every recursive call of the source passes
a singleton set): insert the state into the visited set `new_states`; if it is
an epsilon state, recurse into each present outgoing edge whose target is not
yet visited, `first_outgoing` first.  The call-stack recursion of the source
is fuel-indexed here; `merge`-ing the returned copy back into `new_states` is
a no-op in the source, so the recursive call simply yields the updated set. -/
def travOne (aut : List State) : Nat → Int → List Int → List Int
  | fuel, s, vis =>
    let st := getState aut s
    let v1 := insSorted s vis
    let v2 :=
      if st.character = nul ∧ st.first_outgoing ≠ -1 ∧ st.first_outgoing ∉ v1 then
        match fuel with
        | 0 => v1
        | f + 1 => travOne aut f st.first_outgoing v1
      else v1
    if st.character = nul ∧ st.second_outgoing ≠ -1 ∧ st.second_outgoing ∉ v2 then
      match fuel with
      | 0 => v2
      | f + 1 => travOne aut f st.second_outgoing v2
    else v2

/-- The `for (auto state: current_states)` loop of
`traverseEmptyTransitionsRecursive`, iterating in ascending order over the
passed set while threading the shared visited set. -/
def travLoop (aut : List State) (fuel : Nat) : List Int → List Int → List Int
  | [], vis => vis
  | s :: rest, vis => travLoop aut fuel rest (travOne aut fuel s vis)

/-- `RegularExpression::traverseEmptyTransitions`: start the recursion with an
empty visited set.  Fuel `length + 1` bounds the recursion depth, which grows
only when an unvisited state is expanded; the stabilisation theorem below
shows any larger fuel computes the same set. -/
def traverseEmptyTransitions (aut : List State) (cur : List Int) : List Int :=
  travLoop aut (aut.length + 1) cur []

/-- One input symbol of `RegularExpression::mat`: collect `first_outgoing` of
every current state whose `character` equals the symbol into a fresh set,
then take the epsilon closure. -/
def matStep (aut : List State) (cur : List Int) (c : Char) : List Int :=
  traverseEmptyTransitions aut
    (((cur.filter (fun s => (getState aut s).character = c)).map
        (fun s => (getState aut s).first_outgoing)).foldl
      (fun acc x => insSorted x acc) [])

/-- `RegularExpression::mat`: translate the `"$"` sentinel to the empty
string; an empty automaton accepts exactly the empty string; otherwise
simulate from the epsilon closure of the initial state and accept iff the
last state's index is in the final set. -/
def mat (r : RegEx) (input : List Char) : Bool :=
  let s := if input = ['$'] then [] else input
  if r.automaton = [] then s.isEmpty
  else
    let final := s.foldl (matStep r.automaton)
      (traverseEmptyTransitions r.automaton [r.initial])
    decide (((r.automaton.length : Int) - 1) ∈ final)

/-- `mat` on a `String`, as the collaborator-facing operation. -/
def matS (r : RegEx) (s : String) : Bool := mat r s.data

end RE


namespace RE

/-! ## Renderer -/

/-- One digit character, `'0' + d` for `d < 10`. -/
def digCh (n : Nat) : Char := Char.ofNat (48 + n % 10)

/-- Decimal digits of a natural number, most significant first, written onto
an accumulator; the fuel argument dominates the number of divisions. -/
def natStrGo : Nat → Nat → List Char → List Char
  | 0, _, acc => acc
  | f + 1, n, acc =>
    if n < 10 then digCh n :: acc else natStrGo f (n / 10) (digCh (n % 10) :: acc)

/-- Decimal rendering of a natural number. -/
def natStr (n : Nat) : String := ⟨natStrGo (n + 1) n []⟩

/-- `std::to_string` / `operator<<` rendering of an `int`. -/
def intStr (i : Int) : String :=
  if i < 0 then "-" ++ natStr (-i).toNat else natStr i.toNat

/-- `RegularExpression::dotState`: one edge line of dot notation.  The label
is the state's character when `std::islower` holds of it, and `&epsilon;`
otherwise. -/
def dotState (state_number : Int) (st : State) (first_edge : Bool) : String :=
  "\t" ++ intStr state_number ++ " -> "
    ++ (if first_edge then intStr (st.first_outgoing + 1)
        else intStr (st.second_outgoing + 1))
    ++ " [label=\""
    ++ (if isLowerCpp st.character then String.mk [st.character] else "&epsilon;")
    ++ "\"]\n"

/-- The edge-emitting loop of `RegularExpression::dot`: `state_number` starts
at 1; each state contributes one `dotState` line per present outgoing edge,
`first_outgoing` first. -/
def dotEdgesGo : Int → List State → List String
  | _, [] => []
  | num, st :: tl =>
    (if st.first_outgoing ≠ -1 then [dotState num st true] else [])
      ++ (if st.second_outgoing ≠ -1 then [dotState num st false] else [])
      ++ dotEdgesGo (num + 1) tl

/-- The pieces of `RegularExpression::dot`'s output in emission order: the
header (with the accepting node `size` — or `1` when empty — double-circled,
node `0` invisible, and the `0 -> initial+1` start edge), the edge lines, and
the closing brace. -/
def dotPieces (r : RegEx) : List String :=
  ["digraph \x7b\n",
   "\trankdir = LR\n",
   "\tnode [shape = circle, style = filled, fillcolor = gray93]\n",
   "\t",
   intStr (if r.automaton.isEmpty then 1 else (r.automaton.length : Int)),
   " [shape = doublecircle]\n",
   "\t0 [style = invisible]\n",
   "\t0 -> ",
   intStr (r.initial + 1),
   "\n"]
  ++ dotEdgesGo 1 r.automaton
  ++ ["\x7d"]

/-- `RegularExpression::dot`: the concatenated output text. -/
def dot (r : RegEx) : String := String.join (dotPieces r)

/-- Whether a character list contains `'-'` immediately followed by `'>'`,
i.e. whether the text holds a dot-notation edge arrow. -/
def hasArrow : List Char → Bool
  | [] => false
  | [_] => false
  | c :: d :: tl => (c == '-' && d == '>') || hasArrow (d :: tl)

/-- A piece of renderer output is an edge line iff it holds an arrow. -/
def isEdgePiece (s : String) : Bool := hasArrow s.data

/-! ## The grammar

The grammar printed in the source's comments (and in the specification):

  expr := term ('|' expr)?
  term := fact term?
  fact := lett '*'? | '(' expr ')' '*'?
  lett := [A-Za-z]

An expression accepted by the grammar is the flattening of a derivation
tree; the trees are the following mutual inductives, with well-formedness
requiring every letter to be alphabetic. -/

mutual

inductive ExprT : Type where
  | base : TermT → ExprT
  | alt : TermT → ExprT → ExprT

inductive TermT : Type where
  | single : FactT → TermT
  | cat : FactT → TermT → TermT

inductive FactT : Type where
  | lett : Char → FactT
  | lettStar : Char → FactT
  | paren : ExprT → FactT
  | parenStar : ExprT → FactT

end

mutual

/-- The expression text derived by an `expr` tree. -/
def flatE : ExprT → List Char
  | .base t => flatT t
  | .alt t e => flatT t ++ '|' :: flatE e

/-- The expression text derived by a `term` tree. -/
def flatT : TermT → List Char
  | .single f => flatF f
  | .cat f t => flatF f ++ flatT t

/-- The expression text derived by a `fact` tree. -/
def flatF : FactT → List Char
  | .lett c => [c]
  | .lettStar c => [c, '*']
  | .paren e => '(' :: flatE e ++ [')']
  | .parenStar e => '(' :: flatE e ++ [')', '*']

end

mutual

/-- Well-formedness of an `expr` tree: every terminal is a letter. -/
def wfE : ExprT → Bool
  | .base t => wfT t
  | .alt t e => wfT t && wfE e

/-- Well-formedness of a `term` tree. -/
def wfT : TermT → Bool
  | .single f => wfF f
  | .cat f t => wfF f && wfT t

/-- Well-formedness of a `fact` tree. -/
def wfF : FactT → Bool
  | .lett c => isAlphaCpp c
  | .lettStar c => isAlphaCpp c
  | .paren e => wfE e
  | .parenStar e => wfE e

end

end RE

namespace RE

/-! ## Claims settled by direct computation -/

/-- C1: the automaton built from `"(a|b)*a"` accepts `"a"`, `"ba"` and
`"abba"` and rejects `""`, `"b"` and `"ab"`. -/
theorem claim_C1_literal_scenarios :
    mat (buildRE "(a|b)*a".data) "a".data = true ∧
    mat (buildRE "(a|b)*a".data) "ba".data = true ∧
    mat (buildRE "(a|b)*a".data) "abba".data = true ∧
    mat (buildRE "(a|b)*a".data) "".data = false ∧
    mat (buildRE "(a|b)*a".data) "b".data = false ∧
    mat (buildRE "(a|b)*a".data) "ab".data = false := by
  decide

/-- C3 (code bug): `"AB"` is derived by the documented grammar
(`lett := [A-Za-z]`, `term := fact term?`), yet the builder stops the
concatenation before the uppercase `'B'` — `RegularExpression::term`
continues only on `islower` or `'('` although `fact` accepts any `isalpha`
letter — so `build("AB")` has only the two states of `"A"` and does not
match `"AB"`. -/
theorem claim_C3_uppercase_concat_bug :
    (buildRE "AB".data).automaton.length = 2 ∧
    (buildRE "AB".data).automaton = (buildRE "A".data).automaton ∧
    isAlphaCpp 'A' = true ∧ isAlphaCpp 'B' = true ∧
    mat (buildRE "AB".data) "AB".data = false := by
  decide

/-- C4 (code bug): `RegularExpression::dotState` chooses the edge label with
`std::islower`, so the edge of a state labeled with the uppercase letter
`'A'` — an alphabetic, consuming state per the `State` documentation and per
`mat` — is rendered with the epsilon marker instead of `"A"`. -/
theorem claim_C4_uppercase_label_bug :
    (buildRE "A".data).automaton = [⟨'A', 1, -1⟩, stub] ∧
    isAlphaCpp 'A' = true ∧
    mat (buildRE "A".data) "A".data = true ∧
    dotState 1 ⟨'A', 1, -1⟩ true = "\t1 -> 2 [label=\"&epsilon;\"]\n" := by
  decide

/-- C6 (counterexample): the claim "`matches(build(\"\"), s) = false` for
every non-empty string `s`" fails at the non-empty string `"$"`, which `mat`
translates to the empty string before matching. -/
theorem claim_C6_counterexample :
    "$".data ≠ [] ∧ mat (buildRE "".data) "$".data = true := by
  decide

/-- C6 (amended): the automaton built from the empty expression is empty and
accepts exactly the empty string among all inputs other than the `"$"`
sentinel (which denotes the empty string). -/
theorem claim_C6_empty_amended :
    (buildRE "".data).automaton = [] ∧
    mat (buildRE "".data) "".data = true ∧
    ∀ l : List Char, l ≠ [] → l ≠ ['$'] → mat (buildRE "".data) l = false := by
  refine ⟨by decide, by decide, fun l hne hdol => ?_⟩
  have hb : buildRE "".data = ⟨[], 0⟩ := by decide
  rw [hb, mat]
  simp [hdol, hne]

/-- C6 witness for the amended universal clause. -/
theorem claim_C6_empty_amended_witness :
    mat (buildRE "".data) "b".data = false :=
  claim_C6_empty_amended.2.2 "b".data (by decide) (by decide)

end RE

namespace RE

/-- The symbol count of an expression text: alphabetic letters plus `'*'`s
plus `'|'`s.  Thompson's construction appends exactly two states per such
symbol. -/
def symCount (l : List Char) : Nat :=
  l.countP (fun c => isAlphaCpp c) + l.countP (fun c => c = '*')
    + l.countP (fun c => c = '|')

/-- C10 (code bug): `"AB"` is derived by the grammar (two letters, no star,
no bar), so the claim predicts `2 * 2 = 4` states, but the builder produces
only 2: `term`'s `islower` continuation test stops the parse before `'B'`. -/
theorem claim_C10_state_count_bug :
    flatE (.base (.cat (.lett 'A') (.single (.lett 'B')))) = "AB".data ∧
    wfE (.base (.cat (.lett 'A') (.single (.lett 'B')))) = true ∧
    2 * symCount "AB".data = 4 ∧
    (buildRE "AB".data).automaton.length = 2 := by
  decide

/-! ## Characters appearing in built automata -/

/-- Every state of a list is an epsilon state or carries a letter. -/
def charsOK (l : List State) : Prop :=
  ∀ st ∈ l, st.character = nul ∨ isAlphaCpp st.character = true

/-- Membership in `setBack1`: each element is an original element, or the
original last element with its first edge replaced. -/
theorem mem_setBack1 {l : List State} {v : Int} {st : State}
    (h : st ∈ setBack1 l v) :
    st ∈ l ∨ ∃ st0 ∈ l, st = ⟨st0.character, v, st0.second_outgoing⟩ := by
  induction l with
  | nil => simp [setBack1] at h
  | cons a tl ih =>
    cases tl with
    | nil =>
      simp only [setBack1, List.mem_singleton] at h
      exact Or.inr ⟨a, by simp, h⟩
    | cons b tl2 =>
      simp only [setBack1, List.mem_cons] at h
      rcases h with h | h
      · exact Or.inl (by simp [h])
      · rcases ih h with h1 | ⟨st0, h0, he⟩
        · exact Or.inl (List.mem_cons_of_mem a h1)
        · exact Or.inr ⟨st0, List.mem_cons_of_mem a h0, he⟩

/-- Membership in `setBack2`: each element is an original element, or the
original last element with its second edge replaced. -/
theorem mem_setBack2 {l : List State} {v : Int} {st : State}
    (h : st ∈ setBack2 l v) :
    st ∈ l ∨ ∃ st0 ∈ l, st = ⟨st0.character, st0.first_outgoing, v⟩ := by
  induction l with
  | nil => simp [setBack2] at h
  | cons a tl ih =>
    cases tl with
    | nil =>
      simp only [setBack2, List.mem_singleton] at h
      exact Or.inr ⟨a, by simp, h⟩
    | cons b tl2 =>
      simp only [setBack2, List.mem_cons] at h
      rcases h with h | h
      · exact Or.inl (by simp [h])
      · rcases ih h with h1 | ⟨st0, h0, he⟩
        · exact Or.inl (List.mem_cons_of_mem a h1)
        · exact Or.inr ⟨st0, List.mem_cons_of_mem a h0, he⟩

theorem charsOK_setBack1 {l : List State} {v : Int} (h : charsOK l) :
    charsOK (setBack1 l v) := by
  intro st hst
  rcases mem_setBack1 hst with h1 | ⟨st0, h0, he⟩
  · exact h st h1
  · have := h st0 h0
    rw [he]
    exact this

theorem charsOK_setBack2 {l : List State} {v : Int} (h : charsOK l) :
    charsOK (setBack2 l v) := by
  intro st hst
  rcases mem_setBack2 hst with h1 | ⟨st0, h0, he⟩
  · exact h st h1
  · have := h st0 h0
    rw [he]
    exact this

theorem charsOK_starStep {r : PR} (h : charsOK r.aut) : charsOK (starStep r).aut := by
  unfold starStep
  split
  · split
    · intro st hst
      simp only [List.append_assoc, List.mem_append, List.mem_cons,
        List.mem_singleton, List.not_mem_nil, or_false] at hst
      rcases hst with hst | hst | hst
      · exact charsOK_setBack2 (charsOK_setBack1 h) st hst
      · rw [hst]; exact Or.inl rfl
      · rw [hst]; exact Or.inl rfl
    · exact h
  · exact h

/-- Every state the parser ever creates is an epsilon state or carries an
alphabetic letter (its character having passed `isalpha` in `fact`). -/
theorem parser_chars : ∀ fuel : Nat,
    (∀ input nx st, charsOK (exprP fuel input nx st).aut) ∧
    (∀ input nx st, charsOK (termP fuel input nx st).aut) ∧
    (∀ input nx st, charsOK (factP fuel input nx st).aut) := by
  intro fuel
  induction fuel with
  | zero =>
    refine ⟨?_, ?_, ?_⟩ <;>
      · intro input nx st s hs
        simp [exprP, termP, factP] at hs
  | succ f ih =>
    obtain ⟨ihE, ihT, ihF⟩ := ih
    refine ⟨?_, ?_, ?_⟩
    · intro input nx st
      simp only [exprP]
      split
      · split
        · intro s hs
          simp only [List.append_assoc, List.mem_append, List.mem_cons,
            List.mem_singleton, List.not_mem_nil, or_false] at hs
          rcases hs with hs | hs | hs | hs
          · exact charsOK_setBack1 (ihT input nx st) s hs
          · exact charsOK_setBack1 (ihE _ _ _) s hs
          · rw [hs]; exact Or.inl rfl
          · rw [hs]; exact Or.inl rfl
        · exact ihT input nx st
      · exact ihT input nx st
    · intro input nx st
      simp only [termP]
      split
      · split
        · intro s hs
          simp only [List.mem_append] at hs
          rcases hs with hs | hs
          · exact charsOK_setBack1 (ihF input nx st) s hs
          · exact ihT _ _ _ s hs
        · exact ihF input nx st
      · exact ihF input nx st
    · intro input nx st
      simp only [factP]
      split
      · intro s hs; simp at hs
      · split
        · exact charsOK_starStep (ihE _ _ _)
        · split
          · refine charsOK_starStep ?_
            intro s hs
            simp only [List.mem_cons, List.mem_singleton,
              List.not_mem_nil, or_false] at hs
            rcases hs with hs | hs
            · rw [hs]
              right
              simpa using by assumption
            · rw [hs]; exact Or.inl rfl
          · intro s hs; simp at hs

end RE

namespace RE

/-- C7: the Matcher translates the single-character input `"$"` to the empty
string before matching, for every automaton; and `'$'` never occurs as a
state character of a built automaton — only `'\0'` and letters accepted by
`isalpha` do. -/
theorem claim_C7_dollar_sentinel :
    (∀ A : RegEx, mat A ['$'] = mat A []) ∧
    (∀ input : List Char, ∀ st ∈ (buildRE input).automaton, st.character ≠ '$') := by
  constructor
  · intro A
    rfl
  · intro input st hst
    have hmem : st ∈ (exprP (3 * input.length + 3) input 0 0).aut := hst
    have := (parser_chars (3 * input.length + 3)).1 input 0 0 st hmem
    rcases this with h | h
    · rw [h]; decide
    · intro hc
      rw [hc] at h
      revert h
      decide

/-- C7 witness: the sentinel equivalence and the character property at the
automaton of `"a"` and its letter state. -/
theorem claim_C7_dollar_sentinel_witness :
    mat (buildRE "a".data) ['$'] = mat (buildRE "a".data) [] ∧
    (⟨'a', 1, -1⟩ : State).character ≠ '$' :=
  ⟨claim_C7_dollar_sentinel.1 (buildRE "a".data),
   claim_C7_dollar_sentinel.2 "a".data ⟨'a', 1, -1⟩ (by decide)⟩

/-! ## Renderer counting -/

theorem hasArrow_two (c d : Char) (tl : List Char) :
    hasArrow (c :: d :: tl) = ((c == '-' && d == '>') || hasArrow (d :: tl)) := rfl

theorem hasArrow_append_right {l2 : List Char} (h : hasArrow l2 = true) :
    ∀ l1, hasArrow (l1 ++ l2) = true := by
  intro l1
  induction l1 with
  | nil => simpa using h
  | cons c tl ih =>
    rw [List.cons_append]
    cases htl : tl ++ l2 with
    | nil =>
      exfalso
      rcases List.append_eq_nil.mp htl with ⟨h1, h2⟩
      rw [h2] at h
      simp [hasArrow] at h
    | cons d tl2 =>
      rw [hasArrow_two]
      rw [htl] at ih
      simp [ih]

theorem hasArrow_eq_false : ∀ {l : List Char}, (∀ c ∈ l, c ≠ '>') →
    hasArrow l = false := by
  intro l
  induction l with
  | nil => intro h; rfl
  | cons c tl ih =>
    intro h
    cases tl with
    | nil => rfl
    | cons d tl2 =>
      rw [hasArrow_two, ih (fun x hx => h x (List.mem_cons_of_mem c hx))]
      have hd : d ≠ '>' := h d (by simp)
      simp [hd]

theorem digCh_ne_gt (n : Nat) : digCh n ≠ '>' := by
  unfold digCh
  have h : n % 10 < 10 := Nat.mod_lt _ (by norm_num)
  revert h
  generalize n % 10 = m
  intro h
  interval_cases m <;> decide

theorem natStrGo_ne_gt : ∀ (f n : Nat) (acc : List Char),
    (∀ c ∈ acc, c ≠ '>') → ∀ c ∈ natStrGo f n acc, c ≠ '>' := by
  intro f
  induction f with
  | zero => intro n acc hacc; exact hacc
  | succ g ih =>
    intro n acc hacc c hc
    unfold natStrGo at hc
    split at hc
    · rcases List.mem_cons.mp hc with h | h
      · rw [h]; exact digCh_ne_gt _
      · exact hacc c h
    · refine ih _ _ ?_ c hc
      intro d hd
      rcases List.mem_cons.mp hd with h | h
      · rw [h]; exact digCh_ne_gt _
      · exact hacc d h

theorem intStr_ne_gt (i : Int) : ∀ c ∈ (intStr i).data, c ≠ '>' := by
  unfold intStr natStr
  split
  · intro c hc
    rw [String.data_append] at hc
    rcases List.mem_append.mp hc with h | h
    · simp only [List.mem_singleton] at h
      rw [h]; decide
    · exact natStrGo_ne_gt _ _ [] (by simp) c h
  · intro c hc
    exact natStrGo_ne_gt _ _ [] (by simp) c hc

theorem hasArrow_intStr (i : Int) : hasArrow (intStr i).data = false :=
  hasArrow_eq_false (intStr_ne_gt i)

theorem isEdgePiece_dotState (num : Int) (st : State) (fe : Bool) :
    isEdgePiece (dotState num st fe) = true := by
  unfold isEdgePiece dotState
  simp only [String.data_append, List.append_assoc]
  apply hasArrow_append_right
  apply hasArrow_append_right
  rfl

/-- The number of present transitions over a state list. -/
def presentEdges (aut : List State) : Nat :=
  aut.countP (fun st => st.first_outgoing != -1)
    + aut.countP (fun st => st.second_outgoing != -1)

theorem dotEdgesGo_edge_pieces (aut : List State) : ∀ num : Int,
    (dotEdgesGo num aut).countP isEdgePiece = presentEdges aut := by
  induction aut with
  | nil => intro num; simp [dotEdgesGo, presentEdges]
  | cons a tl ih =>
    intro num
    unfold dotEdgesGo presentEdges
    rw [List.countP_append, List.countP_append, ih (num + 1)]
    unfold presentEdges
    rw [List.countP_cons, List.countP_cons]
    have h1 : (if a.first_outgoing ≠ -1 then [dotState num a true] else []).countP isEdgePiece
        = if (a.first_outgoing != -1) = true then 1 else 0 := by
      split
      · rename_i h
        simp only [List.countP_cons, List.countP_nil, isEdgePiece_dotState]
        simp [h]
      · rename_i h
        simp only [List.countP_nil]
        simp only [ne_eq, not_not] at h
        simp [h]
    have h2 : (if a.second_outgoing ≠ -1 then [dotState num a false] else []).countP isEdgePiece
        = if (a.second_outgoing != -1) = true then 1 else 0 := by
      split
      · rename_i h
        simp only [List.countP_cons, List.countP_nil, isEdgePiece_dotState]
        simp [h]
      · rename_i h
        simp only [List.countP_nil]
        simp only [ne_eq, not_not] at h
        simp [h]
    rw [h1, h2]
    omega

theorem dotEdgesGo_mem (aut : List State) : ∀ (num : Int) (i : Nat) (st : State),
    aut[i]? = some st →
    (st.first_outgoing ≠ -1 → dotState (num + i) st true ∈ dotEdgesGo num aut) ∧
    (st.second_outgoing ≠ -1 → dotState (num + i) st false ∈ dotEdgesGo num aut) := by
  induction aut with
  | nil => intro num i st h; simp at h
  | cons a tl ih =>
    intro num i st h
    cases i with
    | zero =>
      simp only [List.getElem?_cons_zero, Option.some.injEq] at h
      subst h
      constructor <;> intro hne <;>
        · unfold dotEdgesGo
          simp [hne]
    | succ j =>
      have hj : tl[j]? = some st := by simpa using h
      have hrec := ih (num + 1) j st hj
      have harith : num + 1 + (j : Int) = num + ((j : Nat) + 1 : Nat) := by
        push_cast
        ring
      constructor <;> intro hne
      · have hmem := hrec.1 hne
        rw [harith] at hmem
        unfold dotEdgesGo
        simp only [List.append_assoc, List.mem_append]
        right; right
        exact hmem
      · have hmem := hrec.2 hne
        rw [harith] at hmem
        unfold dotEdgesGo
        simp only [List.append_assoc, List.mem_append]
        right; right
        exact hmem

/-- C9: the renderer's output has exactly one edge line per present
transition, plus exactly one for the invisible-start edge (the only
arrow-bearing piece of the header), and the edge lines of the state at
0-based position `i` name node `i + 1` (node `0` being the start marker). -/
theorem claim_C9_renderer_counts (r : RegEx) :
    ((dotPieces r).countP isEdgePiece = presentEdges r.automaton + 1) ∧
    (∀ (i : Nat) (st : State), r.automaton[i]? = some st →
      (st.first_outgoing ≠ -1 → dotState ((i : Int) + 1) st true ∈ dotEdgesGo 1 r.automaton) ∧
      (st.second_outgoing ≠ -1 → dotState ((i : Int) + 1) st false ∈ dotEdgesGo 1 r.automaton)) := by
  constructor
  · unfold dotPieces
    rw [List.countP_append, List.countP_append]
    have hhead : (["digraph \x7b\n",
       "\trankdir = LR\n",
       "\tnode [shape = circle, style = filled, fillcolor = gray93]\n",
       "\t",
       intStr (if r.automaton.isEmpty then 1 else (r.automaton.length : Int)),
       " [shape = doublecircle]\n",
       "\t0 [style = invisible]\n",
       "\t0 -> ",
       intStr (r.initial + 1),
       "\n"]).countP isEdgePiece = 1 := by
      simp only [List.countP_cons, List.countP_nil, isEdgePiece, hasArrow_intStr]
      decide
    have hbrace : (["\x7d"]).countP isEdgePiece = 0 := by decide
    rw [hhead, hbrace, dotEdgesGo_edge_pieces]
    omega
  · intro i st h
    have hmem := dotEdgesGo_mem r.automaton 1 i st h
    have harith : (1 : Int) + (i : Int) = (i : Int) + 1 := by ring
    rw [harith] at hmem
    exact hmem

/-- C9 witness: the count and the numbering at the automaton of `"ab"`. -/
theorem claim_C9_renderer_counts_witness :
    (dotPieces (buildRE "ab".data)).countP isEdgePiece
        = presentEdges (buildRE "ab".data).automaton + 1 ∧
    dotState 3 ⟨'b', 3, -1⟩ true ∈ dotEdgesGo 1 (buildRE "ab".data).automaton :=
  ⟨(claim_C9_renderer_counts (buildRE "ab".data)).1,
   by
    have h := ((claim_C9_renderer_counts (buildRE "ab".data)).2 2 ⟨'b', 3, -1⟩ (by decide)).1
      (by decide)
    simpa using h⟩

end RE

namespace RE

/-! ## Structural invariants of the builder

The claims quantify over "expressions accepted by the grammar".  The parser
invariant below is proved for every input in which each `'('` and each `'|'`
is immediately followed by a letter or `'('` and which does not end in `'('`
or `'|'` — a property every flattened derivation tree has.  (It fails for
texts outside the grammar, e.g. `"a()"`, where the source runs
`automaton.back()` on an empty vector.) -/

/-- Adjacency constraint: after `'('` or `'|'` comes a letter or `'('`. -/
def goodPair (c d : Char) : Bool :=
  (!(c == '(' || c == '|')) || (isAlphaCpp d || d == '(')

/-- Every adjacent pair is good and the text does not end in `'('`/`'|'`. -/
def goodStr : List Char → Bool
  | [] => true
  | [c] => !(c == '(' || c == '|')
  | c :: d :: tl => goodPair c d && goodStr (d :: tl)

/-- The text is empty or begins with a letter or `'('`. -/
def headOK : List Char → Bool
  | [] => true
  | c :: _ => isAlphaCpp c || c == '('

/-- A state reference is absent (`-1`) or within `[lo, hi)`. -/
def okRef (lo hi v : Int) : Prop := v = -1 ∨ (lo ≤ v ∧ v < hi)

/-- The invariant tying a production's result `r` to its input text and its
entry values `n` of `next_index` and `s` of `start_index`: the remaining text
is a suffix; `next_index` advances by exactly the number of appended states;
nothing happens on empty input; non-empty input yields a non-empty
sub-automaton whose start index lies among its own positions `[n, n+len)`,
whose last state is the untouched stub accept state, whose references all lie
in `[n, n+len)` (or are absent), and which consumed at least one character. -/
structure PInv (input : List Char) (n s : Int) (r : PR) : Prop where
  suffix : r.rest <:+ input
  nextEq : r.next = n + r.aut.length
  emptyCase : r.aut = [] → r = ⟨[], input, n, s⟩
  nonemptyAut : input ≠ [] → r.aut ≠ []
  startBound : r.aut ≠ [] → n ≤ r.start ∧ r.start < n + r.aut.length
  lastStub : r.aut ≠ [] → r.aut.getLast? = some stub
  refs : ∀ st ∈ r.aut, okRef n (n + r.aut.length) st.first_outgoing ∧
           okRef n (n + r.aut.length) st.second_outgoing
  consumed : r.aut ≠ [] → r.rest.length < input.length

theorem lower_alpha {c : Char} (h : isLowerCpp c = true) : isAlphaCpp c = true := by
  unfold isLowerCpp at h
  unfold isAlphaCpp
  rw [Bool.or_eq_true]
  exact Or.inr h

theorem goodStr_cons {c : Char} {tl : List Char} (h : goodStr (c :: tl) = true) :
    goodStr tl = true := by
  cases tl with
  | nil => rfl
  | cons d tl2 =>
    have : goodStr (c :: d :: tl2) = (goodPair c d && goodStr (d :: tl2)) := rfl
    rw [this, Bool.and_eq_true] at h
    exact h.2

theorem goodStr_suffix {l1 l2 : List Char} (hs : l1 <:+ l2)
    (h : goodStr l2 = true) : goodStr l1 = true := by
  obtain ⟨t, ht⟩ := hs
  subst ht
  induction t with
  | nil => simpa using h
  | cons c tl ih => exact ih (goodStr_cons h)

theorem goodStr_after {c : Char} {rest : List Char} (hc : c = '(' ∨ c = '|')
    (h : goodStr (c :: rest) = true) : rest ≠ [] ∧ headOK rest = true := by
  cases rest with
  | nil =>
    exfalso
    have : goodStr [c] = (!(c == '(' || c == '|')) := rfl
    rw [this] at h
    rcases hc with hc | hc <;> subst hc <;> simp at h
  | cons d tl =>
    refine ⟨by simp, ?_⟩
    have he : goodStr (c :: d :: tl) = (goodPair c d && goodStr (d :: tl)) := rfl
    rw [he, Bool.and_eq_true] at h
    have hp := h.1
    unfold goodPair at hp
    rw [Bool.or_eq_true] at hp
    rcases hp with hp | hp
    · exfalso
      rcases hc with hc | hc <;> subst hc <;> simp at hp
    · unfold headOK
      rw [Bool.or_eq_true] at hp ⊢
      rcases hp with hp | hp
      · exact Or.inl hp
      · exact Or.inr (by simpa using hp)

theorem headOK_of_cont {c : Char} {tl : List Char}
    (h : (c = '(' || isLowerCpp c) = true) : headOK (c :: tl) = true := by
  unfold headOK
  rw [Bool.or_eq_true] at h ⊢
  rcases h with h | h
  · exact Or.inr (by simpa using h)
  · exact Or.inl (lower_alpha h)

theorem okRef_mono {lo hi lo' hi' v : Int} (hlo : lo' ≤ lo) (hhi : hi ≤ hi')
    (h : okRef lo hi v) : okRef lo' hi' v := by
  rcases h with h | ⟨h1, h2⟩
  · exact Or.inl h
  · exact Or.inr ⟨le_trans hlo h1, lt_of_lt_of_le h2 hhi⟩

theorem setBack1_length (l : List State) (v : Int) :
    (setBack1 l v).length = l.length := by
  induction l with
  | nil => rfl
  | cons a tl ih =>
    cases tl with
    | nil => rfl
    | cons b tl2 =>
      have : setBack1 (a :: b :: tl2) v = a :: setBack1 (b :: tl2) v := rfl
      rw [this]
      simpa using ih

theorem setBack2_length (l : List State) (v : Int) :
    (setBack2 l v).length = l.length := by
  induction l with
  | nil => rfl
  | cons a tl ih =>
    cases tl with
    | nil => rfl
    | cons b tl2 =>
      have : setBack2 (a :: b :: tl2) v = a :: setBack2 (b :: tl2) v := rfl
      rw [this]
      simpa using ih

theorem setBack1_ne_nil {l : List State} (h : l ≠ []) (v : Int) :
    setBack1 l v ≠ [] := by
  intro hc
  apply h
  have := setBack1_length l v
  rw [hc] at this
  exact List.length_eq_zero.mp this.symm

theorem getLastQ_append_right {α : Type} {l2 : List α} (l1 : List α)
    (h : l2 ≠ []) : (l1 ++ l2).getLast? = l2.getLast? := by
  induction l1 with
  | nil => rfl
  | cons a tl ih =>
    rw [List.cons_append, List.getLast?_cons, ih]
    cases l2 with
    | nil => exact absurd rfl h
    | cons b tl2 =>
      have : (b :: tl2 : List α).getLast? = some ((b :: tl2).getLast (by simp)) := by
        simp [List.getLast?_eq_getLast]
      rw [this]
      simp

theorem getLastQ_append_pair {l : List State} {a b : State} :
    (l ++ [a, b]).getLast? = some b := by
  rw [getLastQ_append_right l (by simp)]
  rfl

end RE

namespace RE

theorem refs_setBack1 {l : List State} {v lo hi : Int}
    (hl : ∀ st ∈ l, okRef lo hi st.first_outgoing ∧ okRef lo hi st.second_outgoing)
    (hv : okRef lo hi v) :
    ∀ st ∈ setBack1 l v,
      okRef lo hi st.first_outgoing ∧ okRef lo hi st.second_outgoing := by
  intro st hst
  rcases mem_setBack1 hst with h | ⟨st0, h0, he⟩
  · exact hl st h
  · subst he
    exact ⟨hv, (hl st0 h0).2⟩

theorem refs_setBack2 {l : List State} {v lo hi : Int}
    (hl : ∀ st ∈ l, okRef lo hi st.first_outgoing ∧ okRef lo hi st.second_outgoing)
    (hv : okRef lo hi v) :
    ∀ st ∈ setBack2 l v,
      okRef lo hi st.first_outgoing ∧ okRef lo hi st.second_outgoing := by
  intro st hst
  rcases mem_setBack2 hst with h | ⟨st0, h0, he⟩
  · exact hl st h
  · subst he
    exact ⟨(hl st0 h0).1, hv⟩

/-- The star block preserves the invariant (given the sub-automaton it wraps
is non-empty, which is the only situation in which the parser reaches it on
grammar-derived input). -/
theorem PInv_starStep {input : List Char} {n s : Int} {r : PR}
    (h : PInv input n s r) (hne : r.aut ≠ []) : PInv input n s (starStep r) := by
  unfold starStep
  split
  · rename_i c rest2 heq
    split
    · rename_i hc
      have hlen : (setBack2 (setBack1 r.aut r.start) (r.next + 1)
          ++ [(⟨nul, r.start, r.next + 1⟩ : State), stub]).length
          = r.aut.length + 2 := by
        simp [setBack2_length, setBack1_length]
      have hsb := h.startBound hne
      have hnx := h.nextEq
      have hsufr : rest2 <:+ input := by
        refine List.IsSuffix.trans ?_ h.suffix
        rw [heq]
        exact List.suffix_cons c rest2
      have hrl : r.rest.length ≤ input.length := h.suffix.length_le
      rw [heq] at hrl
      refine ⟨hsufr, ?_, ?_, ?_, ?_, ?_, ?_, ?_⟩
      · rw [hlen]
        push_cast
        omega
      · intro hcon
        simp at hcon
      · intro _
        simp
      · intro _
        rw [hlen]
        push_cast
        constructor <;> omega
      · intro _
        exact getLastQ_append_pair
      · intro st hst
        rw [hlen]
        rcases List.mem_append.mp hst with hm | hm
        · refine refs_setBack2 (refs_setBack1 ?_ ?_) ?_ st hm
          · intro st0 h0
            have := h.refs st0 h0
            push_cast
            exact ⟨okRef_mono le_rfl (by omega) this.1,
              okRef_mono le_rfl (by omega) this.2⟩
          · refine Or.inr ?_
            push_cast
            omega
          · refine Or.inr ?_
            push_cast
            omega
        · rcases List.mem_cons.mp hm with hm | hm
          · rw [hm]
            refine ⟨Or.inr ?_, Or.inr ?_⟩ <;>
              · push_cast
                omega
          · simp only [List.mem_singleton] at hm
            rw [hm]
            exact ⟨Or.inl rfl, Or.inl rfl⟩
      · intro _
        show (rest2 : List Char).length < input.length
        simp only [List.length_cons] at hrl
        omega
    · exact h
  · exact h

end RE

namespace RE

theorem getLastQ_append {α : Type} (l1 l2 : List α) (h : l2 ≠ []) :
    (l1 ++ l2).getLast? = l2.getLast? :=
  getLastQ_append_right l1 h

/-- The builder invariant, proved for all three productions simultaneously by
induction on the fuel: on any `goodStr`/`headOK` input (in particular on any
expression derived from the grammar, and on every suffix of one at which the
parser recurses) each production satisfies `PInv`, provided the fuel exceeds
three times the remaining length (which the top-level `buildRE` fuel does). -/
theorem parser_inv : ∀ fuel : Nat,
    (∀ input n s, goodStr input = true → headOK input = true →
      3 * input.length + 3 ≤ fuel → PInv input n s (exprP fuel input n s)) ∧
    (∀ input n s, goodStr input = true → headOK input = true →
      3 * input.length + 2 ≤ fuel → PInv input n s (termP fuel input n s)) ∧
    (∀ input n s, goodStr input = true → headOK input = true →
      3 * input.length + 1 ≤ fuel → PInv input n s (factP fuel input n s)) := by
  intro fuel
  induction fuel with
  | zero =>
    refine ⟨?_, ?_, ?_⟩ <;>
      · intro input n s _ _ hf
        omega
  | succ f ih =>
    obtain ⟨ihE, ihT, ihF⟩ := ih
    refine ⟨?_, ?_, ?_⟩
    · -- expr := term [ '|' expr ]
      intro input n s hg hh hf
      simp only [exprP]
      split
      · rename_i c rest2 heq
        split
        · rename_i hc
          subst hc
          have h1 : PInv input n s (termP f input n s) :=
            ihT input n s hg hh (by omega)
          set r1 := termP f input n s with hr1def
          have hgr : goodStr r1.rest = true := goodStr_suffix h1.suffix hg
          rw [heq] at hgr
          have hga := goodStr_after (Or.inr rfl) hgr
          have hinne : input ≠ [] := by
            intro hie
            have hsn := h1.suffix
            rw [hie, List.suffix_nil, heq] at hsn
            simp at hsn
          have h1ne := h1.nonemptyAut hinne
          have hrl : ('|' :: rest2).length ≤ input.length := by
            rw [← heq]
            exact h1.suffix.length_le
          simp only [List.length_cons] at hrl
          have h2 : PInv rest2 r1.next r1.start (exprP f rest2 r1.next r1.start) :=
            ihE rest2 r1.next r1.start (goodStr_cons hgr) hga.2 (by omega)
          set r2 := exprP f rest2 r1.next r1.start with hr2def
          have h2ne := h2.nonemptyAut hga.1
          have hn1 := h1.nextEq
          have hn2 := h2.nextEq
          have hsb1 := h1.startBound h1ne
          have hsb2 := h2.startBound h2ne
          refine ⟨?_, ?_, ?_, ?_, ?_, ?_, ?_, ?_⟩
          · show r2.rest <:+ input
            have ha : ('|' :: rest2) <:+ input := heq ▸ h1.suffix
            exact h2.suffix.trans ((List.suffix_cons '|' rest2).trans ha)
          · simp only [List.length_append, setBack1_length, List.length_cons,
              List.length_nil]
            push_cast
            omega
          · intro hcon
            exfalso
            simp at hcon
          · intro _
            simp
          · intro _
            simp only [List.length_append, setBack1_length, List.length_cons,
              List.length_nil]
            push_cast
            constructor <;> omega
          · intro _
            show ((setBack1 r1.aut (r2.next + 1) ++ setBack1 r2.aut (r2.next + 1))
                ++ [(⟨nul, r1.start, r2.start⟩ : State), stub]).getLast? = some stub
            exact getLastQ_append_pair
          · intro st hst
            simp only [List.length_append, setBack1_length, List.length_cons,
              List.length_nil]
            simp only [List.mem_append, List.mem_cons,
              List.not_mem_nil, or_false] at hst
            rcases hst with (hm | hm) | hm | hm
            · refine refs_setBack1 ?_ ?_ st hm
              · intro st0 h0
                have := h1.refs st0 h0
                push_cast
                refine ⟨okRef_mono le_rfl ?_ this.1, okRef_mono le_rfl ?_ this.2⟩ <;> omega
              · refine Or.inr ?_
                push_cast
                omega
            · refine refs_setBack1 ?_ ?_ st hm
              · intro st0 h0
                have := h2.refs st0 h0
                push_cast
                refine ⟨okRef_mono ?_ ?_ this.1, okRef_mono ?_ ?_ this.2⟩ <;> omega
              · refine Or.inr ?_
                push_cast
                omega
            · rw [hm]
              push_cast
              refine ⟨Or.inr ?_, Or.inr ?_⟩ <;> constructor <;> omega
            · rw [hm]
              exact ⟨Or.inl rfl, Or.inl rfl⟩
          · intro _
            show r2.rest.length < input.length
            have := h2.suffix.length_le
            omega
        · rename_i hc
          exact ihT input n s hg hh (by omega)
      · exact ihT input n s hg hh (by omega)
    · -- term := fact [ term ]
      intro input n s hg hh hf
      simp only [termP]
      split
      · rename_i c tl heq
        split
        · rename_i hc
          have h1 : PInv input n s (factP f input n s) :=
            ihF input n s hg hh (by omega)
          set r1 := factP f input n s with hr1def
          have hinne : input ≠ [] := by
            intro hie
            have hsn := h1.suffix
            rw [hie, List.suffix_nil, heq] at hsn
            simp at hsn
          have h1ne := h1.nonemptyAut hinne
          have hcons := h1.consumed h1ne
          have hgr : goodStr r1.rest = true := goodStr_suffix h1.suffix hg
          have hhr : headOK r1.rest = true := by
            rw [heq]
            exact headOK_of_cont hc
          have hrlen : r1.rest.length ≤ input.length := h1.suffix.length_le
          have h2 : PInv r1.rest r1.next r1.start (termP f r1.rest r1.next r1.start) :=
            ihT r1.rest r1.next r1.start hgr hhr (by omega)
          set r2 := termP f r1.rest r1.next r1.start with hr2def
          have h2ne := h2.nonemptyAut (by rw [heq]; simp)
          have hn1 := h1.nextEq
          have hn2 := h2.nextEq
          have hsb1 := h1.startBound h1ne
          have hsb2 := h2.startBound h2ne
          refine ⟨?_, ?_, ?_, ?_, ?_, ?_, ?_, ?_⟩
          · show r2.rest <:+ input
            exact h2.suffix.trans h1.suffix
          · simp only [List.length_append, setBack1_length]
            push_cast
            omega
          · intro hcon
            exfalso
            rcases List.append_eq_nil.mp hcon with ⟨_, hx⟩
            exact h2ne hx
          · intro _
            intro hcon
            rcases List.append_eq_nil.mp hcon with ⟨_, hx⟩
            exact h2ne hx
          · intro _
            simp only [List.length_append, setBack1_length]
            push_cast
            constructor <;> omega
          · intro _
            show (setBack1 r1.aut r2.start ++ r2.aut).getLast? = some stub
            rw [getLastQ_append (setBack1 r1.aut r2.start) r2.aut h2ne]
            exact h2.lastStub h2ne
          · intro st hst
            simp only [List.length_append, setBack1_length]
            simp only [List.mem_append] at hst
            rcases hst with hm | hm
            · refine refs_setBack1 ?_ ?_ st hm
              · intro st0 h0
                have := h1.refs st0 h0
                push_cast
                refine ⟨okRef_mono le_rfl ?_ this.1, okRef_mono le_rfl ?_ this.2⟩ <;> omega
              · refine Or.inr ?_
                push_cast
                omega
            · have := h2.refs st hm
              push_cast
              refine ⟨okRef_mono ?_ ?_ this.1, okRef_mono ?_ ?_ this.2⟩ <;> omega
          · intro _
            show r2.rest.length < input.length
            have := h2.suffix.length_le
            omega
        · rename_i hc
          exact ihF input n s hg hh (by omega)
      · exact ihF input n s hg hh (by omega)
    · -- fact := lett [ '*' ] | '(' expr ')' [ '*' ]
      intro input n s hg hh hf
      simp only [factP]
      split
      · refine ⟨?_, ?_, ?_, ?_, ?_, ?_, ?_, ?_⟩
        · exact List.nil_suffix
        · simp
        · intro _
          rfl
        · intro hcon
          exact absurd rfl hcon
        · intro hcon
          exact absurd rfl hcon
        · intro hcon
          exact absurd rfl hcon
        · intro st hst
          simp at hst
        · intro hcon
          exact absurd rfl hcon
      · rename_i c rest
        split
        · rename_i hc
          subst hc
          have hgrest : goodStr rest = true := goodStr_cons hg
          have hga : rest ≠ [] ∧ headOK rest = true := goodStr_after (Or.inl rfl) hg
          have hE : PInv rest n s (exprP f rest n s) := by
            refine ihE rest n s hgrest hga.2 ?_
            simp only [List.length_cons] at hf
            omega
          set rE := exprP f rest n s with hredef
          have hEne := hE.nonemptyAut hga.1
          have hrestlen : rE.rest.length ≤ rest.length := hE.suffix.length_le
          refine PInv_starStep ?_ hEne
          refine ⟨?_, hE.nextEq, ?_, ?_, ?_, ?_, hE.refs, ?_⟩
          · show rE.rest.drop 1 <:+ '(' :: rest
            exact (List.drop_suffix 1 rE.rest).trans
              (hE.suffix.trans (List.suffix_cons '(' rest))
          · intro hcon
            exact absurd hcon hEne
          · intro _
            exact hEne
          · intro _
            exact hE.startBound hEne
          · intro _
            exact hE.lastStub hEne
          · intro _
            show (rE.rest.drop 1).length < ('(' :: rest).length
            rw [List.length_drop]
            simp only [List.length_cons]
            omega
        · split
          · rename_i hc1 hc2
            refine PInv_starStep ?_ (by simp)
            refine ⟨?_, ?_, ?_, ?_, ?_, ?_, ?_, ?_⟩
            · show rest <:+ c :: rest
              exact List.suffix_cons c rest
            · show (n + 2 : Int) = n + _
              simp
            · intro hcon
              exfalso
              simp at hcon
            · intro _
              simp
            · intro _
              show n ≤ n ∧ n < n + _
              simp
            · intro _
              rfl
            · intro st hst
              rcases List.mem_cons.mp hst with hm | hm
              · rw [hm]
                refine ⟨Or.inr ?_, Or.inl rfl⟩
                simp only [List.length_cons, List.length_singleton]
                push_cast
                constructor <;> omega
              · simp only [List.mem_singleton] at hm
                rw [hm]
                exact ⟨Or.inl rfl, Or.inl rfl⟩
            · intro _
              show rest.length < (c :: rest).length
              simp
          · rename_i hc1 hc2
            exfalso
            unfold headOK at hh
            rw [Bool.or_eq_true] at hh
            rcases hh with hh | hh
            · exact hc2 hh
            · exact hc1 (by simpa using hh)

end RE

namespace RE

theorem alpha_ne_punct {c : Char} (h : isAlphaCpp c = true) :
    c ≠ '(' ∧ c ≠ '|' ∧ c ≠ '*' ∧ c ≠ ')' := by
  refine ⟨?_, ?_, ?_, ?_⟩ <;>
    · intro he
      rw [he] at h
      exact absurd h (by decide)

theorem goodStr_append {l1 l2 : List Char} (h1 : goodStr l1 = true)
    (h2 : goodStr l2 = true) : goodStr (l1 ++ l2) = true := by
  induction l1 with
  | nil => simpa using h2
  | cons c tl ih =>
    cases tl with
    | nil =>
      cases l2 with
      | nil => simpa using h1
      | cons d tl2 =>
        have he : goodStr (c :: d :: tl2) = (goodPair c d && goodStr (d :: tl2)) := rfl
        show goodStr (c :: d :: tl2) = true
        rw [he, Bool.and_eq_true]
        refine ⟨?_, h2⟩
        have h1e : goodStr [c] = (!(c == '(' || c == '|')) := rfl
        rw [h1e] at h1
        unfold goodPair
        rw [Bool.or_eq_true]
        exact Or.inl h1
    | cons b tl2 =>
      have h1e : goodStr (c :: b :: tl2) = (goodPair c b && goodStr (b :: tl2)) := rfl
      rw [h1e, Bool.and_eq_true] at h1
      have : goodStr (c :: b :: (tl2 ++ l2)) = (goodPair c b && goodStr (b :: (tl2 ++ l2))) := rfl
      show goodStr (c :: b :: (tl2 ++ l2)) = true
      rw [this, Bool.and_eq_true]
      exact ⟨h1.1, ih h1.2⟩

theorem goodStr_cons_headOK (c : Char) {l : List Char} (hl : goodStr l = true)
    (hne : l ≠ []) (hh : headOK l = true) : goodStr (c :: l) = true := by
  cases l with
  | nil => exact absurd rfl hne
  | cons d tl =>
    have he : goodStr (c :: d :: tl) = (goodPair c d && goodStr (d :: tl)) := rfl
    rw [he, Bool.and_eq_true]
    refine ⟨?_, hl⟩
    have hhe : headOK (d :: tl) = (isAlphaCpp d || d == '(') := by
      unfold headOK
      simp
    rw [hhe] at hh
    unfold goodPair
    rw [Bool.or_eq_true]
    exact Or.inr hh

theorem goodStr_letter {c : Char} (h : isAlphaCpp c = true) :
    goodStr [c] = true := by
  have he : goodStr [c] = (!(c == '(' || c == '|')) := rfl
  rw [he]
  have := alpha_ne_punct h
  simp [this.1, this.2.1]

theorem headOK_append {l1 l2 : List Char} (hne : l1 ≠ [])
    (h : headOK l1 = true) : headOK (l1 ++ l2) = true := by
  cases l1 with
  | nil => exact absurd rfl hne
  | cons c tl => exact h

theorem headOK_letter {c : Char} (h : isAlphaCpp c = true) (tl : List Char) :
    headOK (c :: tl) = true := by
  unfold headOK
  rw [Bool.or_eq_true]
  exact Or.inl h

mutual

/-- Every well-formed `expr` derivation flattens to a non-empty `goodStr`
text beginning with a letter or `'('`. -/
theorem flatE_good : ∀ e : ExprT, wfE e = true →
    flatE e ≠ [] ∧ headOK (flatE e) = true ∧ goodStr (flatE e) = true
  | .base t, h => flatT_good t h
  | .alt t e, h => by
    have hw : wfT t = true ∧ wfE e = true := by
      have : wfE (.alt t e) = (wfT t && wfE e) := rfl
      rw [this, Bool.and_eq_true] at h
      exact h
    have ht := flatT_good t hw.1
    have he := flatE_good e hw.2
    have hfl : flatE (.alt t e) = flatT t ++ '|' :: flatE e := rfl
    rw [hfl]
    refine ⟨by simp [ht.1], headOK_append ht.1 ht.2.1, ?_⟩
    exact goodStr_append ht.2.2 (goodStr_cons_headOK '|' he.2.2 he.1 he.2.1)

/-- Every well-formed `term` derivation flattens well. -/
theorem flatT_good : ∀ t : TermT, wfT t = true →
    flatT t ≠ [] ∧ headOK (flatT t) = true ∧ goodStr (flatT t) = true
  | .single f, h => flatF_good f h
  | .cat f t, h => by
    have hw : wfF f = true ∧ wfT t = true := by
      have : wfT (.cat f t) = (wfF f && wfT t) := rfl
      rw [this, Bool.and_eq_true] at h
      exact h
    have hf := flatF_good f hw.1
    have ht := flatT_good t hw.2
    have hfl : flatT (.cat f t) = flatF f ++ flatT t := rfl
    rw [hfl]
    exact ⟨by simp [hf.1], headOK_append hf.1 hf.2.1,
      goodStr_append hf.2.2 ht.2.2⟩

/-- Every well-formed `fact` derivation flattens well. -/
theorem flatF_good : ∀ f : FactT, wfF f = true →
    flatF f ≠ [] ∧ headOK (flatF f) = true ∧ goodStr (flatF f) = true
  | .lett c, h => by
    have hfl : flatF (.lett c) = [c] := rfl
    rw [hfl]
    exact ⟨by simp, headOK_letter h [], goodStr_letter h⟩
  | .lettStar c, h => by
    have hfl : flatF (.lettStar c) = [c, '*'] := rfl
    rw [hfl]
    refine ⟨by simp, headOK_letter h ['*'], ?_⟩
    have he : goodStr [c, '*'] = (goodPair c '*' && goodStr ['*']) := rfl
    rw [he, Bool.and_eq_true]
    have := alpha_ne_punct h
    constructor
    · unfold goodPair
      rw [Bool.or_eq_true]
      left
      simp [this.1, this.2.1]
    · rfl
  | .paren e, h => by
    have he := flatE_good e h
    have hfl : flatF (.paren e) = '(' :: (flatE e ++ [')']) := by
      show '(' :: flatE e ++ [')'] = _
      simp
    rw [hfl]
    refine ⟨by simp, by unfold headOK; simp, ?_⟩
    refine goodStr_cons_headOK '(' ?_ (by simp) (headOK_append he.1 he.2.1)
    exact goodStr_append he.2.2 (by rfl)
  | .parenStar e, h => by
    have he := flatE_good e h
    have hfl : flatF (.parenStar e) = '(' :: (flatE e ++ [')', '*']) := by
      show '(' :: flatE e ++ [')', '*'] = _
      simp
    rw [hfl]
    refine ⟨by simp, by unfold headOK; simp, ?_⟩
    refine goodStr_cons_headOK '(' ?_ (by simp) (headOK_append he.1 he.2.1)
    exact goodStr_append he.2.2 (by rfl)

end

/-- C2: for every expression accepted by the grammar, the built state
sequence is non-empty and its last state is the untouched stub — the unique
accepting state checked by `mat` (index `size - 1`) has no outgoing edges. -/
theorem claim_C2_accept_is_last (e : ExprT) (hwf : wfE e = true) :
    (buildRE (flatE e)).automaton ≠ [] ∧
    (buildRE (flatE e)).automaton.getLast? = some stub := by
  have hg := flatE_good e hwf
  have hp := (parser_inv (3 * (flatE e).length + 3)).1 (flatE e) 0 0
    hg.2.2 hg.2.1 le_rfl
  have hne := hp.nonemptyAut hg.1
  exact ⟨hne, hp.lastStub hne⟩

/-- C2 witness: at the expression `"a"`. -/
theorem claim_C2_accept_is_last_witness :
    (buildRE (flatE (.base (.single (.lett 'a'))))).automaton ≠ [] ∧
    (buildRE (flatE (.base (.single (.lett 'a'))))).automaton.getLast? = some stub :=
  claim_C2_accept_is_last (.base (.single (.lett 'a'))) (by decide)

/-- C8: for every expression accepted by the grammar, every outgoing
reference of every state of the built automaton is absent or a valid 0-based
position of the same sequence, and the initial-state index is a valid
position (the sequence being non-empty). -/
theorem claim_C8_refs_valid (e : ExprT) (hwf : wfE e = true) :
    (∀ st ∈ (buildRE (flatE e)).automaton,
      okRef 0 ((buildRE (flatE e)).automaton.length)
        st.first_outgoing ∧
      okRef 0 ((buildRE (flatE e)).automaton.length)
        st.second_outgoing) ∧
    (0 ≤ (buildRE (flatE e)).initial ∧
      (buildRE (flatE e)).initial < (buildRE (flatE e)).automaton.length) := by
  have hg := flatE_good e hwf
  have hp := (parser_inv (3 * (flatE e).length + 3)).1 (flatE e) 0 0
    hg.2.2 hg.2.1 le_rfl
  have hne := hp.nonemptyAut hg.1
  have hsb := hp.startBound hne
  refine ⟨?_, ?_⟩
  · intro st hst
    have := hp.refs st hst
    simpa using this
  · simpa using hsb

/-- C8 witness: at the expression `"(a|b)*a"`. -/
theorem claim_C8_refs_valid_witness :
    okRef 0 10 ((⟨'a', 1, -1⟩ : State).first_outgoing) ∧
    0 ≤ (buildRE "(a|b)*a".data).initial ∧
    (buildRE "(a|b)*a".data).initial < (buildRE "(a|b)*a".data).automaton.length := by
  have h := claim_C8_refs_valid (.base (.cat (.parenStar (.alt
      (.single (.lett 'a')) (.base (.single (.lett 'b')))))
      (.single (.lett 'a')))) (by decide)
  have hflat : flatE (.base (.cat (.parenStar (.alt
      (.single (.lett 'a')) (.base (.single (.lett 'b')))))
      (.single (.lett 'a')))) = "(a|b)*a".data := by decide
  rw [hflat] at h
  refine ⟨?_, h.2⟩
  have hm : (⟨'a', 1, -1⟩ : State) ∈ (buildRE "(a|b)*a".data).automaton := by decide
  have := (h.1 _ hm).1
  have hlen : ((buildRE "(a|b)*a".data).automaton.length : Int) = 10 := by decide
  rw [hlen] at this
  exact this

end RE

namespace RE

/-! ## Termination of the epsilon closure

The epsilon-closure recursion of the source is guarded by the visited set:
a recursive call is made only for a target not yet visited, and the callee
immediately inserts it.  The number of valid state indices not yet visited
therefore bounds the recursion depth, and any fuel of at least
`automaton size + 1` computes the same set as any larger fuel — the
fuel-indexed embedding has stabilised, which is exactly termination of the
source's unbounded recursion. -/

/-- The valid state indices of an automaton, as the source's `int` values. -/
def validIdx (aut : List State) : Finset Int :=
  Finset.Icc 0 ((aut.length : Int) - 1)

/-- All present references of all states land on valid indices. -/
def refsOK (aut : List State) : Prop :=
  ∀ st ∈ aut,
    (st.first_outgoing = -1 ∨ st.first_outgoing ∈ validIdx aut) ∧
    (st.second_outgoing = -1 ∨ st.second_outgoing ∈ validIdx aut)

/-- The number of valid indices not yet in the visited set. -/
def unvis (aut : List State) (vis : List Int) : Nat :=
  (validIdx aut \ vis.toFinset).card

theorem mem_insSorted (x : Int) : ∀ (l : List Int) (y : Int),
    y ∈ insSorted x l ↔ y = x ∨ y ∈ l := by
  intro l
  induction l with
  | nil => intro y; simp [insSorted]
  | cons a tl ih =>
    intro y
    unfold insSorted
    split
    · simp only [List.mem_cons]
    · split
      · rename_i hlt heq
        subst heq
        simp only [List.mem_cons]
        tauto
      · simp only [List.mem_cons, ih]
        tauto

theorem subset_insSorted (x : Int) (l : List Int) : l ⊆ insSorted x l := by
  intro y hy
  rw [mem_insSorted]
  exact Or.inr hy

theorem self_mem_insSorted (x : Int) (l : List Int) : x ∈ insSorted x l := by
  rw [mem_insSorted]
  exact Or.inl rfl

theorem toFinset_insSorted (x : Int) (l : List Int) :
    (insSorted x l).toFinset = insert x l.toFinset := by
  ext y
  simp only [List.mem_toFinset, Finset.mem_insert, mem_insSorted]

theorem unvis_mono (aut : List State) {l1 l2 : List Int} (h : l1 ⊆ l2) :
    unvis aut l2 ≤ unvis aut l1 := by
  unfold unvis
  refine Finset.card_le_card (Finset.sdiff_subset_sdiff (le_refl _) ?_)
  intro y hy
  rw [List.mem_toFinset] at hy ⊢
  exact h hy

theorem unvis_insSorted_le (aut : List State) (x : Int) (vis : List Int) :
    unvis aut (insSorted x vis) ≤ unvis aut vis :=
  unvis_mono aut (subset_insSorted x vis)

theorem unvis_pos {aut : List State} {x : Int} {vis : List Int}
    (hx : x ∈ validIdx aut) (hnv : x ∉ vis) : 1 ≤ unvis aut vis := by
  unfold unvis
  refine Finset.card_pos.mpr ⟨x, ?_⟩
  rw [Finset.mem_sdiff, List.mem_toFinset]
  exact ⟨hx, hnv⟩

theorem unvis_insSorted_lt {aut : List State} {x : Int} {vis : List Int}
    (hx : x ∈ validIdx aut) (hnv : x ∉ vis) :
    unvis aut (insSorted x vis) < unvis aut vis := by
  unfold unvis
  rw [toFinset_insSorted, Finset.sdiff_insert,
    Finset.card_erase_of_mem (by rw [Finset.mem_sdiff, List.mem_toFinset]; exact ⟨hx, hnv⟩)]
  have := unvis_pos hx hnv
  unfold unvis at this
  omega

theorem unvis_insSorted_succ_le {aut : List State} {x : Int} {vis : List Int}
    (hx : x ∈ validIdx aut) (hnv : x ∉ vis) :
    unvis aut (insSorted x vis) + 1 ≤ unvis aut vis :=
  unvis_insSorted_lt hx hnv

theorem getState_mem {aut : List State} {x : Int} (hx : x ∈ validIdx aut) :
    getState aut x ∈ aut := by
  unfold validIdx at hx
  rw [Finset.mem_Icc] at hx
  have hlt : x.toNat < aut.length := by omega
  unfold getState
  rw [if_neg (by omega), List.getD_eq_getElem aut stub hlt]
  exact List.getElem_mem hlt

/-- The first guarded expansion of a `travOne` step (the `first_outgoing`
branch), with the recursive occurrence abstracted. -/
def stepFst (aut : List State) (rec : Int → List Int → List Int)
    (x : Int) (v : List Int) : List Int :=
  if (getState aut x).character = nul ∧ (getState aut x).first_outgoing ≠ -1 ∧
      (getState aut x).first_outgoing ∉ v then
    rec (getState aut x).first_outgoing v
  else v

/-- The second guarded expansion of a `travOne` step (the `second_outgoing`
branch). -/
def stepSnd (aut : List State) (rec : Int → List Int → List Int)
    (x : Int) (v : List Int) : List Int :=
  if (getState aut x).character = nul ∧ (getState aut x).second_outgoing ≠ -1 ∧
      (getState aut x).second_outgoing ∉ v then
    rec (getState aut x).second_outgoing v
  else v

theorem travOne_succ (aut : List State) (ff : Nat) (x : Int) (vis : List Int) :
    travOne aut (ff + 1) x vis =
      stepSnd aut (travOne aut ff) x
        (stepFst aut (travOne aut ff) x (insSorted x vis)) := rfl

theorem travOne_zero (aut : List State) (x : Int) (vis : List Int) :
    travOne aut 0 x vis =
      stepSnd aut (fun _ w => w) x
        (stepFst aut (fun _ w => w) x (insSorted x vis)) := rfl

theorem stepFst_subset {aut : List State} {rec : Int → List Int → List Int}
    (hrec : ∀ z w, w ⊆ rec z w) (x : Int) (v : List Int) :
    v ⊆ stepFst aut rec x v := by
  unfold stepFst
  split
  · exact hrec _ _
  · exact fun y hy => hy

theorem stepSnd_subset {aut : List State} {rec : Int → List Int → List Int}
    (hrec : ∀ z w, w ⊆ rec z w) (x : Int) (v : List Int) :
    v ⊆ stepSnd aut rec x v := by
  unfold stepSnd
  split
  · exact hrec _ _
  · exact fun y hy => hy

theorem stepFst_eq {aut : List State} {rec1 rec2 : Int → List Int → List Int}
    (x : Int) (v : List Int)
    (h : (getState aut x).first_outgoing ≠ -1 →
      (getState aut x).first_outgoing ∉ v →
      rec1 (getState aut x).first_outgoing v = rec2 (getState aut x).first_outgoing v) :
    stepFst aut rec1 x v = stepFst aut rec2 x v := by
  unfold stepFst
  split
  · rename_i hg
    exact h hg.2.1 hg.2.2
  · rfl

theorem stepSnd_eq {aut : List State} {rec1 rec2 : Int → List Int → List Int}
    (x : Int) (v : List Int)
    (h : (getState aut x).second_outgoing ≠ -1 →
      (getState aut x).second_outgoing ∉ v →
      rec1 (getState aut x).second_outgoing v = rec2 (getState aut x).second_outgoing v) :
    stepSnd aut rec1 x v = stepSnd aut rec2 x v := by
  unfold stepSnd
  split
  · rename_i hg
    exact h hg.2.1 hg.2.2
  · rfl

theorem travOne_subset (aut : List State) : ∀ (f : Nat) (x : Int) (vis : List Int),
    vis ⊆ travOne aut f x vis := by
  intro f
  induction f with
  | zero =>
    intro x vis
    rw [travOne_zero]
    have h1 : vis ⊆ insSorted x vis := subset_insSorted x vis
    have h2 : insSorted x vis ⊆
        stepFst aut (fun _ w => w) x (insSorted x vis) :=
      stepFst_subset (fun z w y hy => hy) x _
    have h3 : stepFst aut (fun _ w => w) x (insSorted x vis) ⊆
        stepSnd aut (fun _ w => w) x
          (stepFst aut (fun _ w => w) x (insSorted x vis)) :=
      stepSnd_subset (fun z w y hy => hy) x _
    exact h1.trans (h2.trans h3)
  | succ f ih =>
    intro x vis
    rw [travOne_succ]
    have h1 : vis ⊆ insSorted x vis := subset_insSorted x vis
    have h2 : insSorted x vis ⊆
        stepFst aut (travOne aut f) x (insSorted x vis) :=
      stepFst_subset (fun z w => ih z w) x _
    have h3 : stepFst aut (travOne aut f) x (insSorted x vis) ⊆
        stepSnd aut (travOne aut f) x
          (stepFst aut (travOne aut f) x (insSorted x vis)) :=
      stepSnd_subset (fun z w => ih z w) x _
    exact h1.trans (h2.trans h3)

/-- Fuel irrelevance for a single guarded expansion: starting at an unvisited
valid state, any two fuels of at least the number of unvisited valid indices
compute the same visited set. -/
theorem travOne_fuel_stable (aut : List State) (href : refsOK aut) :
    ∀ K : Nat, ∀ (vis : List Int) (x : Int) (f g : Nat),
      x ∈ validIdx aut → x ∉ vis → unvis aut vis ≤ K →
      unvis aut vis ≤ f → unvis aut vis ≤ g →
      travOne aut f x vis = travOne aut g x vis := by
  intro K
  induction K with
  | zero =>
    intro vis x f g hxv hnv hK _ _
    have := unvis_pos hxv hnv
    omega
  | succ K ih =>
    intro vis x f g hxv hnv hK hf hg
    have hpos := unvis_pos hxv hnv
    obtain ⟨f', rfl⟩ : ∃ f', f = f' + 1 := ⟨f - 1, by omega⟩
    obtain ⟨g', rfl⟩ : ∃ g', g = g' + 1 := ⟨g - 1, by omega⟩
    rw [travOne_succ, travOne_succ]
    have hrefs := href _ (getState_mem hxv)
    have hu1 : unvis aut (insSorted x vis) + 1 ≤ unvis aut vis :=
      unvis_insSorted_succ_le hxv hnv
    have hfst : stepFst aut (travOne aut f') x (insSorted x vis)
        = stepFst aut (travOne aut g') x (insSorted x vis) := by
      refine stepFst_eq x _ (fun hne hnv1 => ?_)
      have ho1 : (getState aut x).first_outgoing ∈ validIdx aut := by
        rcases hrefs.1 with h | h
        · exact absurd h hne
        · exact h
      exact ih (insSorted x vis) _ f' g' ho1 hnv1 (by omega) (by omega) (by omega)
    rw [← hfst]
    refine stepSnd_eq x _ (fun hne hnv2 => ?_)
    have ho2 : (getState aut x).second_outgoing ∈ validIdx aut := by
      rcases hrefs.2 with h | h
      · exact absurd h hne
      · exact h
    have hsub : insSorted x vis ⊆ stepFst aut (travOne aut f') x (insSorted x vis) :=
      stepFst_subset (fun z w => travOne_subset aut f' z w) x _
    have hle := unvis_mono aut hsub
    exact ih _ _ f' g' ho2 hnv2 (by omega) (by omega) (by omega)

/-- Fuel irrelevance for the closure loop over a list of valid indices, for
any two fuels strictly larger than the number of unvisited valid indices. -/
theorem travLoop_fuel_stable (aut : List State) (href : refsOK aut) :
    ∀ (ss vis : List Int) (f g : Nat),
      (∀ y ∈ ss, y ∈ validIdx aut) →
      unvis aut vis + 1 ≤ f → unvis aut vis + 1 ≤ g →
      travLoop aut f ss vis = travLoop aut g ss vis := by
  intro ss
  induction ss with
  | nil =>
    intro vis f g _ _ _
    rfl
  | cons s rest ih =>
    intro vis f g hss hf hg
    have hsv : s ∈ validIdx aut := hss s (by simp)
    obtain ⟨f', rfl⟩ : ∃ f', f = f' + 1 := ⟨f - 1, by omega⟩
    obtain ⟨g', rfl⟩ : ∃ g', g = g' + 1 := ⟨g - 1, by omega⟩
    have hrefs := href _ (getState_mem hsv)
    have hu1 : unvis aut (insSorted s vis) ≤ unvis aut vis :=
      unvis_insSorted_le aut s vis
    have hone : travOne aut (f' + 1) s vis = travOne aut (g' + 1) s vis := by
      rw [travOne_succ, travOne_succ]
      have hfst : stepFst aut (travOne aut f') s (insSorted s vis)
          = stepFst aut (travOne aut g') s (insSorted s vis) := by
        refine stepFst_eq s _ (fun hne hnv1 => ?_)
        have ho1 : (getState aut s).first_outgoing ∈ validIdx aut := by
          rcases hrefs.1 with h | h
          · exact absurd h hne
          · exact h
        exact travOne_fuel_stable aut href (unvis aut (insSorted s vis))
          _ _ f' g' ho1 hnv1 le_rfl (by omega) (by omega)
      rw [← hfst]
      refine stepSnd_eq s _ (fun hne hnv2 => ?_)
      have ho2 : (getState aut s).second_outgoing ∈ validIdx aut := by
        rcases hrefs.2 with h | h
        · exact absurd h hne
        · exact h
      have hsub : insSorted s vis ⊆ stepFst aut (travOne aut f') s (insSorted s vis) :=
        stepFst_subset (fun z w => travOne_subset aut f' z w) s _
      have hle := unvis_mono aut hsub
      exact travOne_fuel_stable aut href (unvis aut vis) _ _ f' g'
        ho2 hnv2 (by omega) (by omega) (by omega)
    show travLoop aut (f' + 1) rest (travOne aut (f' + 1) s vis)
        = travLoop aut (g' + 1) rest (travOne aut (g' + 1) s vis)
    rw [← hone]
    have hunv : unvis aut (travOne aut (f' + 1) s vis) ≤ unvis aut vis :=
      unvis_mono aut (travOne_subset aut (f' + 1) s vis)
    exact ih (travOne aut (f' + 1) s vis) (f' + 1) (g' + 1)
      (fun y hy => hss y (List.mem_cons_of_mem s hy)) (by omega) (by omega)

end RE

namespace RE

theorem refsOK_of_okRef {aut : List State}
    (h : ∀ st ∈ aut, okRef 0 (aut.length) st.first_outgoing ∧
      okRef 0 (aut.length) st.second_outgoing) :
    refsOK aut := by
  intro st hst
  have hok := h st hst
  unfold validIdx
  constructor
  · rcases hok.1 with h1 | ⟨h1, h2⟩
    · exact Or.inl h1
    · refine Or.inr ?_
      rw [Finset.mem_Icc]
      omega
  · rcases hok.2 with h1 | ⟨h1, h2⟩
    · exact Or.inl h1
    · refine Or.inr ?_
      rw [Finset.mem_Icc]
      omega

/-- Every automaton built from a grammar-derived expression has only valid
references. -/
theorem built_refsOK (e : ExprT) (hwf : wfE e = true) :
    refsOK (buildRE (flatE e)).automaton := by
  have hg := flatE_good e hwf
  have hp := (parser_inv (3 * (flatE e).length + 3)).1 (flatE e) 0 0
    hg.2.2 hg.2.1 le_rfl
  refine refsOK_of_okRef ?_
  intro st hst
  have := hp.refs st hst
  simpa using this

/-- C5: for every expression accepted by the grammar that contains `'*'`, the
epsilon-closure computation over the built automaton terminates on every set
of valid state indices: the fuel-indexed embedding of the source's
visited-guarded recursion is already stable at fuel `size + 1` — every larger
fuel computes the same set, because an expansion is recursed into only for an
unvisited state, which the callee immediately marks visited. -/
theorem claim_C5_closure_terminates (e : ExprT) (hwf : wfE e = true)
    (hstar : '*' ∈ flatE e) (S : List Int)
    (hS : ∀ x ∈ S, x ∈ validIdx (buildRE (flatE e)).automaton)
    (fuel : Nat) (hfuel : (buildRE (flatE e)).automaton.length + 1 ≤ fuel) :
    travLoop (buildRE (flatE e)).automaton fuel S [] =
      traverseEmptyTransitions (buildRE (flatE e)).automaton S := by
  have href := built_refsOK e hwf
  have hunv : unvis (buildRE (flatE e)).automaton []
      ≤ (buildRE (flatE e)).automaton.length := by
    unfold unvis validIdx
    simp only [List.toFinset_nil, Finset.sdiff_empty]
    rw [Int.card_Icc]
    omega
  unfold traverseEmptyTransitions
  exact travLoop_fuel_stable _ href S [] fuel
    ((buildRE (flatE e)).automaton.length + 1) hS (by omega) (by omega)

/-- C5 witness: the automaton of `"a*"` (4 states, a star cycle), the start
set `{0}` and the fuel 6 against the canonical fuel 5. -/
theorem claim_C5_closure_terminates_witness :
    travLoop (buildRE (flatE (.base (.single (.lettStar 'a'))))).automaton 6 [0] [] =
      traverseEmptyTransitions
        (buildRE (flatE (.base (.single (.lettStar 'a'))))).automaton [0] :=
  claim_C5_closure_terminates (.base (.single (.lettStar 'a'))) (by decide)
    (by decide) [0] (by decide) 6 (by decide)

end RE
